import Mathlib

/-!
Shallow embedding of the QSBR (quiescent-state based reclamation) part of
libqsbr (qsbr.c / qsbr.h), together with proofs about the claims of the
specification.

Modelling notes.

* Memory.  Per-thread records (`struct qsbr_tls`) live in an explicit heap,
  an association list from record ids (malloc addresses) to record values.
  `free` removes the id from the heap; dereferencing an id that is not in
  the heap models a use-after-free.  The allocator hands out ids from a
  counter (`next_id`), so every fresh allocation has an id distinct from
  all live ones.
* TLS.  `pthread_getspecific` / `pthread_setspecific` on the instance's key
  is an association list from thread ids to record ids; an absent thread id
  is a NULL TLS value.
* Epochs.  `qsbr_epoch_t` is `unsigned long`; the source static_asserts that
  it is a 64-bit counter and its FIXME note states that epoch overflow is
  only a concern on 32-bit systems, not on the asserted 64-bit width.  The
  embedding therefore uses unbounded `Nat` for epochs.
* Failure.  `ASSERT(t != NULL)` firing is `CRes.assertFail`; dereferencing a
  freed record is `CRes.dangling`; the registry walk of `qsbr_sync` takes
  fuel and reports `CRes.fuelOut` when the fuel runs out, which lets us
  reason about non-terminating traversals of a corrupted (cyclic) registry.
* Concurrency.  Each API call runs atomically in the model (the
  compare-and-swap insertion loop succeeds on the first try against the
  current head); claims here are about the sequential state-machine
  semantics of the operations.
-/

namespace LibQsbr

/-- Lookup in an association list keyed by `Nat` (a heap or a TLS map). -/
def hget {α : Type} : List (Nat × α) → Nat → Option α
  | [], _ => none
  | (k, v) :: t, k' => if k' = k then some v else hget t k'

/-- Remove a key from an association list (models `free`, or clearing TLS). -/
def hdel {α : Type} (h : List (Nat × α)) (k : Nat) : List (Nat × α) :=
  h.filter (fun p => p.1 ≠ k)

/-- Write a key in an association list (models a store through a pointer,
or `pthread_setspecific`). -/
def hset {α : Type} (h : List (Nat × α)) (k : Nat) (v : α) : List (Nat × α) :=
  (k, v) :: hdel h k

/-- The per-thread record `qsbr_tls_t`: the thread's local epoch and the
link to the next record of the registry (`none` is the NULL pointer that
ends the list). -/
structure QsbrTLS where
  local_epoch : Nat
  next : Option Nat
deriving DecidableEq

/-- The QSBR instance `struct qsbr`, together with the memory the model
needs: the heap of allocated records and the allocator counter. -/
structure Qsbr where
  global_epoch : Nat
  tls : List (Nat × Nat)
  list : Option Nat
  heap : List (Nat × QsbrTLS)
  next_id : Nat
deriving DecidableEq

/-- Outcome of an operation of the C code: a normal return, a tripped
`ASSERT`, a dereference of freed memory, or a registry walk that did not
finish within the model's fuel. -/
inductive CRes (α : Type) where
  | ok : α → CRes α
  | assertFail : CRes α
  | dangling : CRes α
  | fuelOut : CRes α
deriving DecidableEq

/-- The errno value `ENOMEM` returned by `qsbr_register` on malloc failure. -/
def ENOMEM : Nat := 12

/-- `qsbr_create`: NULL (`none`) when the `calloc` of the instance or
`pthread_key_create` fails; otherwise a fresh instance whose global epoch
is 2 (1 is reserved for the extended quiescent state). -/
def qsbr_create (calloc_ok key_create_ok : Bool) : Option Qsbr :=
  if calloc_ok && key_create_ok then
    some { global_epoch := 2, tls := [], list := none, heap := [], next_id := 0 }
  else none

/-- `qsbr_unregister`: `free` the caller's record and clear the TLS slot.
The source does not touch `qs->list`, so the freed record stays linked in
the registry. -/
def qsbr_unregister (tid : Nat) (qs : Qsbr) : Qsbr :=
  match hget qs.tls tid with
  | none => { qs with tls := hdel qs.tls tid }
  | some rid => { qs with heap := hdel qs.heap rid, tls := hdel qs.tls tid }

/-- `qsbr_register`: reuse the caller's record when the TLS slot is set,
otherwise allocate one (`ENOMEM` when malloc fails); `memset` the record to
zero, then push it at the head of the registry with a compare-and-swap (the
record's `next` becomes the old head). -/
def qsbr_register (malloc_ok : Bool) (tid : Nat) (qs : Qsbr) : Except Nat Qsbr :=
  match hget qs.tls tid with
  | some rid =>
    Except.ok { qs with
      heap := hset qs.heap rid { local_epoch := 0, next := qs.list },
      list := some rid }
  | none =>
    if malloc_ok then
      Except.ok { qs with
        heap := hset qs.heap qs.next_id { local_epoch := 0, next := qs.list },
        tls := hset qs.tls tid qs.next_id,
        list := some qs.next_id,
        next_id := qs.next_id + 1 }
    else Except.error ENOMEM

/-- `qsbr_checkpoint`: `ASSERT` that the caller has a record, then store the
current global epoch into its local epoch. -/
def qsbr_checkpoint (tid : Nat) (qs : Qsbr) : CRes Qsbr :=
  match hget qs.tls tid with
  | none => CRes.assertFail
  | some rid =>
    match hget qs.heap rid with
    | none => CRes.dangling
    | some r =>
      CRes.ok { qs with heap := hset qs.heap rid { r with local_epoch := qs.global_epoch } }

/-- `qsbr_get_epoch`: `ASSERT` that the caller has a record and read its
local epoch. -/
def qsbr_get_epoch (tid : Nat) (qs : Qsbr) : CRes Nat :=
  match hget qs.tls tid with
  | none => CRes.assertFail
  | some rid =>
    match hget qs.heap rid with
    | none => CRes.dangling
    | some r => CRes.ok r.local_epoch

/-- `qsbr_barrier`: atomic fetch-and-add of 1 on the global epoch; returns
the incremented value. -/
def qsbr_barrier (qs : Qsbr) : Nat × Qsbr :=
  (qs.global_epoch + 1, { qs with global_epoch := qs.global_epoch + 1 })

/-- The registry walk of `qsbr_sync`: follow `next` from a record pointer;
return false at the first record whose local epoch is neither the offline
sentinel 1 nor at least the target, true when the list ends. -/
def sync_scan (h : List (Nat × QsbrTLS)) (target : Nat) : Nat → Option Nat → CRes Bool
  | _, none => CRes.ok true
  | 0, some _ => CRes.fuelOut
  | fuel + 1, some rid =>
    match hget h rid with
    | none => CRes.dangling
    | some r =>
      if r.local_epoch ≠ 1 ∧ r.local_epoch < target then CRes.ok false
      else sync_scan h target fuel r.next

/-- `qsbr_sync`: the caller first observes the epoch itself through
`qsbr_checkpoint`, then walks the registry from the head. -/
def qsbr_sync (fuel tid target : Nat) (qs : Qsbr) : CRes (Bool × Qsbr) :=
  match qsbr_checkpoint tid qs with
  | CRes.ok qs1 =>
    match sync_scan qs1.heap target fuel qs1.list with
    | CRes.ok b => CRes.ok (b, qs1)
    | CRes.assertFail => CRes.assertFail
    | CRes.dangling => CRes.dangling
    | CRes.fuelOut => CRes.fuelOut
  | CRes.assertFail => CRes.assertFail
  | CRes.dangling => CRes.dangling
  | CRes.fuelOut => CRes.fuelOut

/-- `qsbr_thread_offline`: `ASSERT` the caller has a record, then store the
reserved sentinel 1 (extended quiescent state) into its local epoch. -/
def qsbr_thread_offline (tid : Nat) (qs : Qsbr) : CRes Qsbr :=
  match hget qs.tls tid with
  | none => CRes.assertFail
  | some rid =>
    match hget qs.heap rid with
    | none => CRes.dangling
    | some r =>
      CRes.ok { qs with heap := hset qs.heap rid { r with local_epoch := 1 } }

/-- `qsbr_thread_online`: `ASSERT` the caller has a record, then store the
current global epoch into its local epoch. -/
def qsbr_thread_online (tid : Nat) (qs : Qsbr) : CRes Qsbr :=
  match hget qs.tls tid with
  | none => CRes.assertFail
  | some rid =>
    match hget qs.heap rid with
    | none => CRes.dangling
    | some r =>
      CRes.ok { qs with heap := hset qs.heap rid { r with local_epoch := qs.global_epoch } }

/-- The operations of the interface, for reasoning about traces.  `sync`
carries the model fuel and the target; `register` carries the malloc
outcome. -/
inductive Op where
  | register (malloc_ok : Bool) (tid : Nat)
  | unregister (tid : Nat)
  | checkpoint (tid : Nat)
  | get_epoch (tid : Nat)
  | barrier
  | sync (fuel target tid : Nat)
  | thread_offline (tid : Nat)
  | thread_online (tid : Nat)

/-- The state an operation with a `CRes` outcome leaves behind: the new
state on a normal return, the old one when the call failed. -/
def stepOfCRes (qs : Qsbr) : CRes Qsbr → Qsbr
  | CRes.ok s => s
  | CRes.assertFail => qs
  | CRes.dangling => qs
  | CRes.fuelOut => qs

/-- The state `qsbr_register` leaves behind (the old state on `ENOMEM`). -/
def stepOfExcept (qs : Qsbr) : Except Nat Qsbr → Qsbr
  | Except.ok s => s
  | Except.error _ => qs

/-- State effect of one operation.  An operation that fails (malloc failure,
tripped assert, freed record) leaves the state as it was; the state effect
of `qsbr_sync` is that of its internal checkpoint, since the registry walk
itself writes nothing. -/
def step (op : Op) (qs : Qsbr) : Qsbr :=
  match op with
  | Op.register mok tid => stepOfExcept qs (qsbr_register mok tid qs)
  | Op.unregister tid => qsbr_unregister tid qs
  | Op.checkpoint tid => stepOfCRes qs (qsbr_checkpoint tid qs)
  | Op.get_epoch _ => qs
  | Op.barrier => (qsbr_barrier qs).2
  | Op.sync _ _ tid => stepOfCRes qs (qsbr_checkpoint tid qs)
  | Op.thread_offline tid => stepOfCRes qs (qsbr_thread_offline tid qs)
  | Op.thread_online tid => stepOfCRes qs (qsbr_thread_online tid qs)

/-- Run a trace of operations from a state. -/
def run (ops : List Op) (qs : Qsbr) : Qsbr :=
  ops.foldl (fun s op => step op s) qs

/-- The local epoch of a thread as the code would read it: TLS slot, then
the record in the heap. -/
def localOf (tid : Nat) (qs : Qsbr) : Option Nat :=
  match hget qs.tls tid with
  | none => none
  | some rid => (hget qs.heap rid).map (fun r => r.local_epoch)

/-- The record ids of the registry read by following `next` from a pointer,
within fuel; `none` when the walk dangles or does not finish. -/
def chainIds (h : List (Nat × QsbrTLS)) : Nat → Option Nat → Option (List Nat)
  | _, none => some []
  | 0, some _ => none
  | fuel + 1, some rid =>
    match hget h rid with
    | none => none
    | some r => (chainIds h fuel r.next).map (fun l => rid :: l)

/-- The records of the registry read by following `next` from a pointer,
within fuel. -/
def chainRecs (h : List (Nat × QsbrTLS)) : Nat → Option Nat → Option (List QsbrTLS)
  | _, none => some []
  | 0, some _ => none
  | fuel + 1, some rid =>
    match hget h rid with
    | none => none
    | some r => (chainRecs h fuel r.next).map (fun l => r :: l)

/-- The pointer reached after `n` steps of `next` from a pointer (`none`
for the end of the list or a dangling step). -/
def nthPtr (h : List (Nat × QsbrTLS)) : Nat → Option Nat → Option Nat
  | 0, p => p
  | n + 1, p =>
    match p with
    | none => none
    | some rid =>
      match hget h rid with
      | none => none
      | some r => nthPtr h n r.next

/-- Register a list of threads one after the other (every malloc succeeds). -/
def regAll (tids : List Nat) (qs : Qsbr) : Qsbr :=
  tids.foldl (fun s t => step (Op.register true t) s) qs

/-- An operation another thread may run between a thread `f` registering
and `f` publishing its first epoch: a reader-side call (checkpoint,
offline, online, sync) by a thread that is not `f` and whose record is not
`f`'s (in the TLS map `tls1`, the one in force after `f` registered),
a barrier, or an epoch read.  `register` and `unregister` are excluded:
they add or remove registry records, and removal or re-insertion corrupts
the registry itself (a freed record stays linked; a re-pushed record makes
the chain cyclic), after which a sync walk no longer returns at all. -/
def reader_op (f : Nat) (tls1 : List (Nat × Nat)) : Op → Prop
  | Op.checkpoint u => u ≠ f ∧ hget tls1 u ≠ hget tls1 f
  | Op.get_epoch _ => True
  | Op.barrier => True
  | Op.sync _ _ u => u ≠ f ∧ hget tls1 u ≠ hget tls1 f
  | Op.thread_offline u => u ≠ f ∧ hget tls1 u ≠ hget tls1 f
  | Op.thread_online u => u ≠ f ∧ hget tls1 u ≠ hget tls1 f
  | Op.register _ _ => False
  | Op.unregister _ => False

instance (f : Nat) (tls1 : List (Nat × Nat)) (op : Op) : Decidable (reader_op f tls1 op) := by
  cases op <;> simp only [reader_op] <;> infer_instance

/-- The grace-period condition a record must satisfy for `qsbr_sync`: it is
offline (the sentinel 1) or its local epoch is at least the target. -/
def grace_ok (target : Nat) (r : QsbrTLS) : Prop :=
  r.local_epoch = 1 ∨ target ≤ r.local_epoch

instance (target : Nat) (r : QsbrTLS) : Decidable (grace_ok target r) := by
  unfold grace_ok
  infer_instance

/-- The freshly created instance (what `qsbr_create` returns when both
allocations succeed), used by the concrete instantiations below. -/
def qs0ex : Qsbr :=
  { global_epoch := 2, tls := [], list := none, heap := [], next_id := 0 }

/-! Association-list lemmas. -/

theorem hdel_cons {α : Type} (a : Nat) (b : α) (t : List (Nat × α)) (k : Nat) :
    hdel ((a, b) :: t) k = if a = k then hdel t k else (a, b) :: hdel t k := by
  by_cases hak : a = k <;> simp [hdel, List.filter_cons, hak]

theorem hget_hdel_self {α : Type} (h : List (Nat × α)) (k : Nat) :
    hget (hdel h k) k = none := by
  induction h with
  | nil => rfl
  | cons p t ih =>
    obtain ⟨a, b⟩ := p
    rw [hdel_cons]
    by_cases hak : a = k
    · rw [if_pos hak]
      exact ih
    · rw [if_neg hak]
      show (if k = a then some b else hget (hdel t k) k) = none
      rw [if_neg (fun hka => hak hka.symm)]
      exact ih

theorem hget_hdel_ne {α : Type} (h : List (Nat × α)) (k k' : Nat) (hne : k' ≠ k) :
    hget (hdel h k) k' = hget h k' := by
  induction h with
  | nil => rfl
  | cons p t ih =>
    obtain ⟨a, b⟩ := p
    rw [hdel_cons]
    by_cases hak : a = k
    · rw [if_pos hak]
      show hget (hdel t k) k' = (if k' = a then some b else hget t k')
      rw [if_neg (hak ▸ hne)]
      exact ih
    · rw [if_neg hak]
      show (if k' = a then some b else hget (hdel t k) k') =
        (if k' = a then some b else hget t k')
      by_cases hka : k' = a
      · rw [if_pos hka, if_pos hka]
      · rw [if_neg hka, if_neg hka]
        exact ih

theorem hget_hset_self {α : Type} (h : List (Nat × α)) (k : Nat) (v : α) :
    hget (hset h k v) k = some v := by
  simp [hset, hget]

theorem hget_hset_ne {α : Type} (h : List (Nat × α)) (k k' : Nat) (v : α) (hne : k' ≠ k) :
    hget (hset h k v) k' = hget h k' := by
  simp [hset, hget, hne, hget_hdel_ne h k k' hne]

/-! Characterizations of the operations on success. -/

theorem qsbr_create_eq {a b : Bool} {qs0 : Qsbr} (h : qsbr_create a b = some qs0) :
    qs0 = { global_epoch := 2, tls := [], list := none, heap := [], next_id := 0 } := by
  unfold qsbr_create at h
  split at h
  · exact (Option.some_inj.mp h).symm
  · cases h

theorem qsbr_register_ok_fields {mok : Bool} {tid : Nat} {qs s : Qsbr}
    (h : qsbr_register mok tid qs = Except.ok s) :
    s.global_epoch = qs.global_epoch := by
  unfold qsbr_register at h
  split at h
  · cases h
    rfl
  · split at h
    · cases h
      rfl
    · cases h

theorem qsbr_checkpoint_ok_parts {tid : Nat} {qs s : Qsbr}
    (h : qsbr_checkpoint tid qs = CRes.ok s) :
    ∃ rid r, hget qs.tls tid = some rid ∧ hget qs.heap rid = some r ∧
      s = { qs with heap := hset qs.heap rid { r with local_epoch := qs.global_epoch } } := by
  unfold qsbr_checkpoint at h
  split at h
  · cases h
  · rename_i rid htls
    split at h
    · cases h
    · rename_i r hheap
      cases h
      exact ⟨rid, r, htls, hheap, rfl⟩

theorem qsbr_thread_offline_ok_parts {tid : Nat} {qs s : Qsbr}
    (h : qsbr_thread_offline tid qs = CRes.ok s) :
    ∃ rid r, hget qs.tls tid = some rid ∧ hget qs.heap rid = some r ∧
      s = { qs with heap := hset qs.heap rid { r with local_epoch := 1 } } := by
  unfold qsbr_thread_offline at h
  split at h
  · cases h
  · rename_i rid htls
    split at h
    · cases h
    · rename_i r hheap
      cases h
      exact ⟨rid, r, htls, hheap, rfl⟩

theorem qsbr_thread_online_ok_parts {tid : Nat} {qs s : Qsbr}
    (h : qsbr_thread_online tid qs = CRes.ok s) :
    ∃ rid r, hget qs.tls tid = some rid ∧ hget qs.heap rid = some r ∧
      s = { qs with heap := hset qs.heap rid { r with local_epoch := qs.global_epoch } } := by
  unfold qsbr_thread_online at h
  split at h
  · cases h
  · rename_i rid htls
    split at h
    · cases h
    · rename_i r hheap
      cases h
      exact ⟨rid, r, htls, hheap, rfl⟩

/-! The global epoch only grows, over any trace of operations. -/

theorem stepOfExcept_register_global (mok : Bool) (tid : Nat) (qs : Qsbr) :
    (stepOfExcept qs (qsbr_register mok tid qs)).global_epoch = qs.global_epoch := by
  cases hr : qsbr_register mok tid qs with
  | ok s => exact qsbr_register_ok_fields hr
  | error e => rfl

theorem qsbr_unregister_global (tid : Nat) (qs : Qsbr) :
    (qsbr_unregister tid qs).global_epoch = qs.global_epoch := by
  unfold qsbr_unregister
  split <;> rfl

theorem stepOfCRes_checkpoint_global (tid : Nat) (qs : Qsbr) :
    (stepOfCRes qs (qsbr_checkpoint tid qs)).global_epoch = qs.global_epoch := by
  cases hr : qsbr_checkpoint tid qs with
  | ok s =>
    obtain ⟨rid, r, _, _, hs⟩ := qsbr_checkpoint_ok_parts hr
    subst hs
    rfl
  | assertFail => rfl
  | dangling => rfl
  | fuelOut => rfl

theorem stepOfCRes_offline_global (tid : Nat) (qs : Qsbr) :
    (stepOfCRes qs (qsbr_thread_offline tid qs)).global_epoch = qs.global_epoch := by
  cases hr : qsbr_thread_offline tid qs with
  | ok s =>
    obtain ⟨rid, r, _, _, hs⟩ := qsbr_thread_offline_ok_parts hr
    subst hs
    rfl
  | assertFail => rfl
  | dangling => rfl
  | fuelOut => rfl

theorem stepOfCRes_online_global (tid : Nat) (qs : Qsbr) :
    (stepOfCRes qs (qsbr_thread_online tid qs)).global_epoch = qs.global_epoch := by
  cases hr : qsbr_thread_online tid qs with
  | ok s =>
    obtain ⟨rid, r, _, _, hs⟩ := qsbr_thread_online_ok_parts hr
    subst hs
    rfl
  | assertFail => rfl
  | dangling => rfl
  | fuelOut => rfl

theorem step_global_mono (op : Op) (qs : Qsbr) :
    qs.global_epoch ≤ (step op qs).global_epoch := by
  cases op with
  | register mok tid => exact Nat.le_of_eq (stepOfExcept_register_global mok tid qs).symm
  | unregister tid => exact Nat.le_of_eq (qsbr_unregister_global tid qs).symm
  | checkpoint tid => exact Nat.le_of_eq (stepOfCRes_checkpoint_global tid qs).symm
  | get_epoch tid => exact Nat.le_refl _
  | barrier => exact Nat.le_succ _
  | sync fuel target tid => exact Nat.le_of_eq (stepOfCRes_checkpoint_global tid qs).symm
  | thread_offline tid => exact Nat.le_of_eq (stepOfCRes_offline_global tid qs).symm
  | thread_online tid => exact Nat.le_of_eq (stepOfCRes_online_global tid qs).symm

theorem run_global_mono (ops : List Op) (qs : Qsbr) :
    qs.global_epoch ≤ (run ops qs).global_epoch := by
  induction ops generalizing qs with
  | nil => exact Nat.le_refl _
  | cons op ops ih =>
    exact Nat.le_trans (step_global_mono op qs) (ih (step op qs))

theorem qsbr_checkpoint_ok_global {tid : Nat} {qs s : Qsbr}
    (h : qsbr_checkpoint tid qs = CRes.ok s) : s.global_epoch = qs.global_epoch := by
  obtain ⟨rid, r, _, _, hs⟩ := qsbr_checkpoint_ok_parts h
  subst hs
  rfl

theorem localOf_checkpoint {tid : Nat} {qs s : Qsbr}
    (h : qsbr_checkpoint tid qs = CRes.ok s) :
    localOf tid s = some qs.global_epoch := by
  obtain ⟨rid, r, htls, hheap, hs⟩ := qsbr_checkpoint_ok_parts h
  subst hs
  simp [localOf, htls, hget_hset_self]

theorem localOf_offline {tid : Nat} {qs s : Qsbr}
    (h : qsbr_thread_offline tid qs = CRes.ok s) :
    localOf tid s = some 1 := by
  obtain ⟨rid, r, htls, hheap, hs⟩ := qsbr_thread_offline_ok_parts h
  subst hs
  simp [localOf, htls, hget_hset_self]

/-- The registry walk of `qsbr_sync` computes the conjunction of the
grace-period condition over the records of the (finite) chain. -/
theorem sync_scan_chain (h : List (Nat × QsbrTLS)) (target : Nat) :
    ∀ fuel p recs, chainRecs h fuel p = some recs →
      sync_scan h target fuel p =
        CRes.ok (recs.all (fun r => decide (grace_ok target r))) := by
  intro fuel
  induction fuel with
  | zero =>
    intro p recs hc
    cases p with
    | none =>
      simp only [chainRecs] at hc
      cases hc
      rfl
    | some rid => cases hc
  | succ fuel ih =>
    intro p recs hc
    cases p with
    | none =>
      simp only [chainRecs] at hc
      cases hc
      rfl
    | some rid =>
      cases hh : hget h rid with
      | none =>
        simp only [chainRecs, hh] at hc
        cases hc
      | some r =>
        simp only [chainRecs, hh] at hc
        obtain ⟨l, hl, hrecs⟩ := Option.map_eq_some'.mp hc
        subst hrecs
        simp only [sync_scan, hh]
        by_cases hcond : r.local_epoch ≠ 1 ∧ r.local_epoch < target
        · rw [if_pos hcond]
          have hg : decide (grace_ok target r) = false := by
            simp only [grace_ok, decide_eq_false_iff_not]
            omega
          simp [List.all_cons, hg]
        · rw [if_neg hcond]
          have hg : decide (grace_ok target r) = true := by
            simp only [grace_ok, decide_eq_true_eq]
            omega
          simp [List.all_cons, hg, ih _ _ hl]

/-- Claim C1: `qsbr_sync` first performs the caller's own checkpoint
(writing the current global epoch into the caller's local epoch), then
returns true exactly when every record of the registry either holds the
offline sentinel 1 or holds a local epoch at least the target, the
sentinel being excluded from the ordering comparison. -/
theorem qsbr_sync_correct (fuel tid target : Nat) (qs s1 : Qsbr) (recs : List QsbrTLS)
    (hchk : qsbr_checkpoint tid qs = CRes.ok s1)
    (hchain : chainRecs s1.heap fuel s1.list = some recs) :
    localOf tid s1 = some qs.global_epoch ∧
    ∃ b, qsbr_sync fuel tid target qs = CRes.ok (b, s1) ∧
      (b = true ↔ ∀ r ∈ recs, grace_ok target r) := by
  refine ⟨localOf_checkpoint hchk, recs.all (fun r => decide (grace_ok target r)), ?_, ?_⟩
  · simp only [qsbr_sync, hchk, sync_scan_chain s1.heap target fuel s1.list recs hchain]
  · simp [List.all_eq_true]

/-- Claim C4: across any trace of interface operations, the local epoch a
thread publishes at its checkpoints is monotone non-decreasing, and
`qsbr_thread_offline` resets the thread's local epoch to the sentinel 1. -/
theorem qsbr_checkpoint_monotone :
    (∀ qs tid s1 l s2 e1 e2,
      qsbr_checkpoint tid qs = CRes.ok s1 →
      qsbr_checkpoint tid (run l s1) = CRes.ok s2 →
      localOf tid s1 = some e1 → localOf tid s2 = some e2 → e1 ≤ e2) ∧
    (∀ qs tid s, qsbr_thread_offline tid qs = CRes.ok s → localOf tid s = some 1) := by
  constructor
  · intro qs tid s1 l s2 e1 e2 h1 h2 he1 he2
    have hv1 : e1 = qs.global_epoch := by
      have := localOf_checkpoint h1
      rw [he1] at this
      exact Option.some_inj.mp this.symm |>.symm
    have hv2 : e2 = (run l s1).global_epoch := by
      have := localOf_checkpoint h2
      rw [he2] at this
      exact Option.some_inj.mp this.symm |>.symm
    have hs1 : s1.global_epoch = qs.global_epoch := qsbr_checkpoint_ok_global h1
    rw [hv1, hv2, ← hs1]
    exact run_global_mono l s1
  · intro qs tid s h
    exact localOf_offline h

/-- Claim C7 counterexample: on a fresh instance with zero registered
threads, `qsbr_sync` does not return true: the caller itself has no
per-thread record, so the `ASSERT` inside the internal `qsbr_checkpoint`
is reached and fails. -/
theorem qsbr_sync_zero_threads_asserts :
    qsbr_create true true = some qs0ex ∧
    hget qs0ex.tls 0 = none ∧
    qsbr_sync 5 0 3 qs0ex = CRes.assertFail := by
  exact ⟨rfl, rfl, rfl⟩

/-- Claim C7 amended: a registry walk over an empty registry returns true
for every target, but `qsbr_sync` called by a thread with no per-thread
record (necessarily the case on an instance with zero registered threads)
fails the assertion inside its internal `qsbr_checkpoint` before the walk
is reached. -/
theorem qsbr_sync_empty_registry (fuel target tid : Nat) (qs : Qsbr)
    (h : hget qs.tls tid = none) :
    qsbr_sync fuel tid target qs = CRes.assertFail ∧
    (∀ hp tgt fl, sync_scan hp tgt fl none = CRes.ok true) := by
  constructor
  · unfold qsbr_sync qsbr_checkpoint
    rw [h]
  · intro hp tgt fl
    cases fl <;> rfl

/-- Witness for the amended claim C7, at the fresh instance. -/
theorem qsbr_sync_empty_registry_witness :
    qsbr_sync 4 7 9 qs0ex = CRes.assertFail ∧
    (∀ hp tgt fl, sync_scan hp tgt fl none = CRes.ok true) :=
  qsbr_sync_empty_registry 4 9 7 qs0ex rfl

/-- Claim C2: `qsbr_barrier` increments the global epoch by exactly one and
returns the new value; the TLS key, the registry head, every per-thread
record in the heap and the allocator are untouched. -/
theorem qsbr_barrier_increments (qs : Qsbr) :
    (qsbr_barrier qs).1 = qs.global_epoch + 1 ∧
    (qsbr_barrier qs).2.global_epoch = qs.global_epoch + 1 ∧
    (qsbr_barrier qs).1 = (qsbr_barrier qs).2.global_epoch ∧
    (qsbr_barrier qs).2.tls = qs.tls ∧
    (qsbr_barrier qs).2.list = qs.list ∧
    (qsbr_barrier qs).2.heap = qs.heap ∧
    (qsbr_barrier qs).2.next_id = qs.next_id := by
  refine ⟨rfl, rfl, rfl, rfl, rfl, rfl, rfl⟩

/-- Claim C3: the offline sentinel is the reserved value 1; a fresh
instance starts at global epoch 2; every operation of the interface can
only increase the global epoch, so on every state reachable from a fresh
instance the global epoch stays at least 2 and in particular never equals
the sentinel. -/
theorem qsbr_global_epoch_invariant :
    (∀ a b qs0, qsbr_create a b = some qs0 → qs0.global_epoch = 2) ∧
    (∀ op qs, qs.global_epoch ≤ (step op qs).global_epoch) ∧
    (∀ a b qs0 ops, qsbr_create a b = some qs0 →
      2 ≤ (run ops qs0).global_epoch ∧ (run ops qs0).global_epoch ≠ 1) := by
  refine ⟨fun a b qs0 h => by rw [qsbr_create_eq h], step_global_mono, ?_⟩
  intro a b qs0 ops h
  have h2 : qs0.global_epoch = 2 := by rw [qsbr_create_eq h]
  have hge : 2 ≤ (run ops qs0).global_epoch := h2 ▸ run_global_mono ops qs0
  exact ⟨hge, by omega⟩

/-- Claim C6: out-of-memory on create/register is the only error of the
interface.  `qsbr_create` returns NULL exactly when the allocation of the
instance or of the TLS key fails; `qsbr_register` returns an error exactly
when the caller has no record yet and its malloc fails, and that error is
always `ENOMEM`, every other call returning 0.  (The remaining operations
are embedded as total functions with no error component, matching their
`void`/value C return types.) -/
theorem qsbr_oom_only_error :
    (∀ a b, qsbr_create a b = none ↔ (a = false ∨ b = false)) ∧
    (∀ mok tid qs, (∃ e, qsbr_register mok tid qs = Except.error e) ↔
      (hget qs.tls tid = none ∧ mok = false)) ∧
    (∀ mok tid qs, qsbr_register mok tid qs = Except.error ENOMEM ∨
      ∃ s, qsbr_register mok tid qs = Except.ok s) := by
  refine ⟨?_, ?_, ?_⟩
  · intro a b
    cases a <;> cases b <;> simp [qsbr_create]
  · intro mok tid qs
    unfold qsbr_register
    cases htls : hget qs.tls tid with
    | some rid => simp
    | none => cases mok <;> simp
  · intro mok tid qs
    unfold qsbr_register
    cases htls : hget qs.tls tid with
    | some rid =>
      right
      exact ⟨_, rfl⟩
    | none =>
      cases mok with
      | false =>
        left
        rfl
      | true =>
        right
        exact ⟨_, rfl⟩

/-- Witness for claim C1: on an instance with one registered thread that
calls `qsbr_sync` itself, the walk sees the single record (fresh from the
caller's own checkpoint at epoch 2) and target 3 is not yet reached. -/
theorem qsbr_sync_correct_witness :
    localOf 0 (step (Op.checkpoint 0) (regAll [0] qs0ex)) =
      some (regAll [0] qs0ex).global_epoch ∧
    ∃ b, qsbr_sync 3 0 3 (regAll [0] qs0ex) =
        CRes.ok (b, step (Op.checkpoint 0) (regAll [0] qs0ex)) ∧
      (b = true ↔ ∀ r ∈ [({ local_epoch := 2, next := none } : QsbrTLS)], grace_ok 3 r) :=
  qsbr_sync_correct 3 0 3 (regAll [0] qs0ex) (step (Op.checkpoint 0) (regAll [0] qs0ex))
    [{ local_epoch := 2, next := none }] (by decide) (by decide)

/-- Witness for claim C4: a checkpoint at epoch 2, a barrier, and a later
checkpoint at epoch 3; and `qsbr_thread_offline` leaving local epoch 1. -/
theorem qsbr_checkpoint_monotone_witness :
    (2 : Nat) ≤ 3 ∧
    localOf 0 (step (Op.thread_offline 0) (regAll [0] qs0ex)) = some 1 :=
  ⟨qsbr_checkpoint_monotone.1 (regAll [0] qs0ex) 0
      (step (Op.checkpoint 0) (regAll [0] qs0ex)) [Op.barrier]
      (step (Op.checkpoint 0) (run [Op.barrier] (step (Op.checkpoint 0) (regAll [0] qs0ex))))
      2 3 (by decide) (by decide) (by decide) (by decide),
    qsbr_checkpoint_monotone.2 (regAll [0] qs0ex) 0
      (step (Op.thread_offline 0) (regAll [0] qs0ex)) (by decide)⟩

/-- Witness for claim C3, at a fresh instance after one barrier. -/
theorem qsbr_global_epoch_invariant_witness :
    2 ≤ (run [Op.barrier] qs0ex).global_epoch ∧
    (run [Op.barrier] qs0ex).global_epoch ≠ 1 :=
  qsbr_global_epoch_invariant.2.2 true true qs0ex [Op.barrier] rfl

/-- Claim C5 evaluated on the code: threads 0 and 1 register, thread 0
unregisters.  Its TLS slot is cleared and its record freed, but the record
stays linked in the registry (`qs->list` is untouched, the walk reaches the
freed id after one step), and the next `qsbr_sync` by thread 1 with target
2 dereferences the freed record. -/
theorem qsbr_unregister_leaves_record_linked :
    hget (qsbr_unregister 0 (regAll [0, 1] qs0ex)).tls 0 = none ∧
    hget (qsbr_unregister 0 (regAll [0, 1] qs0ex)).heap 0 = none ∧
    (qsbr_unregister 0 (regAll [0, 1] qs0ex)).list = (regAll [0, 1] qs0ex).list ∧
    nthPtr (qsbr_unregister 0 (regAll [0, 1] qs0ex)).heap 1
      (qsbr_unregister 0 (regAll [0, 1] qs0ex)).list = some 0 ∧
    qsbr_sync 5 1 2 (qsbr_unregister 0 (regAll [0, 1] qs0ex)) = CRes.dangling := by
  decide

/-- After a successful `qsbr_register` (either the fresh-malloc path or the
re-registration path that reuses the caller's record), the caller's TLS
slot names a record that is the head of the registry and holds local epoch
0, its `next` being the old head. -/
theorem qsbr_register_ok_head {mok : Bool} {f : Nat} {qs s1 : Qsbr}
    (h : qsbr_register mok f qs = Except.ok s1) :
    ∃ ridf, hget s1.tls f = some ridf ∧ s1.list = some ridf ∧
      hget s1.heap ridf = some { local_epoch := 0, next := qs.list } := by
  unfold qsbr_register at h
  split at h
  · rename_i rid htls
    cases h
    exact ⟨rid, htls, rfl, hget_hset_self qs.heap rid _⟩
  · rename_i htls
    split at h
    · cases h
      exact ⟨qs.next_id, hget_hset_self qs.tls f _, rfl,
        hget_hset_self qs.heap qs.next_id _⟩
    · cases h

/-- Writing a record other than `ridf` preserves the head pointer, the TLS
map, the record at `ridf`, and the presence of the record at `ridc`. -/
theorem heap_write_preserves (s : Qsbr) (tls1 : List (Nat × Nat)) (ridf ridc ridu : Nat)
    (v w : QsbrTLS)
    (h1 : s.tls = tls1) (h3 : s.list = some ridf)
    (h4 : hget s.heap ridf = some v) (h5 : ∃ rc, hget s.heap ridc = some rc)
    (hridu : ridu ≠ ridf) :
    ({ s with heap := hset s.heap ridu w } : Qsbr).tls = tls1 ∧
    ({ s with heap := hset s.heap ridu w } : Qsbr).list = some ridf ∧
    hget ({ s with heap := hset s.heap ridu w } : Qsbr).heap ridf = some v ∧
    ∃ rc', hget ({ s with heap := hset s.heap ridu w } : Qsbr).heap ridc = some rc' := by
  refine ⟨h1, h3, ?_, ?_⟩
  · show hget (hset s.heap ridu w) ridf = some v
    rw [hget_hset_ne s.heap ridu ridf w (Ne.symm hridu)]
    exact h4
  · show ∃ rc', hget (hset s.heap ridu w) ridc = some rc'
    by_cases hcc : ridc = ridu
    · subst hcc
      exact ⟨w, hget_hset_self s.heap ridc w⟩
    · obtain ⟨rc, hrc⟩ := h5
      refine ⟨rc, ?_⟩
      rw [hget_hset_ne s.heap ridu ridc w hcc]
      exact hrc

/-- Along any trace of reader-side operations by threads other than `f`
(no registry insertion or removal), the TLS map, the registry head, the
record at the head id `ridf`, and the presence of a record `ridc` are all
preserved: those operations only rewrite the local epochs of records other
than `ridf`. -/
theorem run_reader_preserves (f ridf ridc : Nat) (v : QsbrTLS) (tls1 : List (Nat × Nat)) :
    ∀ (l : List Op) (s : Qsbr),
      (∀ op ∈ l, reader_op f tls1 op) →
      s.tls = tls1 →
      hget tls1 f = some ridf →
      s.list = some ridf →
      hget s.heap ridf = some v →
      (∃ rc, hget s.heap ridc = some rc) →
      ((run l s).tls = tls1 ∧ (run l s).list = some ridf ∧
       hget (run l s).heap ridf = some v ∧
       ∃ rc', hget (run l s).heap ridc = some rc') := by
  intro l
  induction l with
  | nil =>
    intro s _ h1 _ h3 h4 h5
    exact ⟨h1, h3, h4, h5⟩
  | cons op l' ih =>
    intro s hl h1 hf h3 h4 h5
    have hop := hl op (List.mem_cons_self op l')
    have hl' : ∀ op2 ∈ l', reader_op f tls1 op2 :=
      fun op2 hm => hl op2 (List.mem_cons_of_mem op hm)
    have hkey : (step op s).tls = tls1 ∧ (step op s).list = some ridf ∧
        hget (step op s).heap ridf = some v ∧
        ∃ rc', hget (step op s).heap ridc = some rc' := by
      cases op with
      | register mok tid => exact False.elim hop
      | unregister tid => exact False.elim hop
      | barrier => exact ⟨h1, h3, h4, h5⟩
      | get_epoch tid => exact ⟨h1, h3, h4, h5⟩
      | checkpoint u =>
        obtain ⟨huf, hune⟩ := hop
        simp only [step]
        cases hr : qsbr_checkpoint u s with
        | ok s' =>
          obtain ⟨ridu, ru, hutls, huheap, hs'⟩ := qsbr_checkpoint_ok_parts hr
          subst hs'
          have hu1 : hget tls1 u = some ridu := by
            rw [← h1]
            exact hutls
          have hridu : ridu ≠ ridf := fun he => hune (by rw [hu1, hf, he])
          exact heap_write_preserves s tls1 ridf ridc ridu v _ h1 h3 h4 h5 hridu
        | assertFail => exact ⟨h1, h3, h4, h5⟩
        | dangling => exact ⟨h1, h3, h4, h5⟩
        | fuelOut => exact ⟨h1, h3, h4, h5⟩
      | sync fl tg u =>
        obtain ⟨huf, hune⟩ := hop
        simp only [step]
        cases hr : qsbr_checkpoint u s with
        | ok s' =>
          obtain ⟨ridu, ru, hutls, huheap, hs'⟩ := qsbr_checkpoint_ok_parts hr
          subst hs'
          have hu1 : hget tls1 u = some ridu := by
            rw [← h1]
            exact hutls
          have hridu : ridu ≠ ridf := fun he => hune (by rw [hu1, hf, he])
          exact heap_write_preserves s tls1 ridf ridc ridu v _ h1 h3 h4 h5 hridu
        | assertFail => exact ⟨h1, h3, h4, h5⟩
        | dangling => exact ⟨h1, h3, h4, h5⟩
        | fuelOut => exact ⟨h1, h3, h4, h5⟩
      | thread_offline u =>
        obtain ⟨huf, hune⟩ := hop
        simp only [step]
        cases hr : qsbr_thread_offline u s with
        | ok s' =>
          obtain ⟨ridu, ru, hutls, huheap, hs'⟩ := qsbr_thread_offline_ok_parts hr
          subst hs'
          have hu1 : hget tls1 u = some ridu := by
            rw [← h1]
            exact hutls
          have hridu : ridu ≠ ridf := fun he => hune (by rw [hu1, hf, he])
          exact heap_write_preserves s tls1 ridf ridc ridu v _ h1 h3 h4 h5 hridu
        | assertFail => exact ⟨h1, h3, h4, h5⟩
        | dangling => exact ⟨h1, h3, h4, h5⟩
        | fuelOut => exact ⟨h1, h3, h4, h5⟩
      | thread_online u =>
        obtain ⟨huf, hune⟩ := hop
        simp only [step]
        cases hr : qsbr_thread_online u s with
        | ok s' =>
          obtain ⟨ridu, ru, hutls, huheap, hs'⟩ := qsbr_thread_online_ok_parts hr
          subst hs'
          have hu1 : hget tls1 u = some ridu := by
            rw [← h1]
            exact hutls
          have hridu : ridu ≠ ridf := fun he => hune (by rw [hu1, hf, he])
          exact heap_write_preserves s tls1 ridf ridc ridu v _ h1 h3 h4 h5 hridu
        | assertFail => exact ⟨h1, h3, h4, h5⟩
        | dangling => exact ⟨h1, h3, h4, h5⟩
        | fuelOut => exact ⟨h1, h3, h4, h5⟩
    exact ih (step op s) hl' hkey.1 hf hkey.2.1 hkey.2.2.1 hkey.2.2.2

/-- Claim C9: a record just created or re-created by `qsbr_register`
(either branch) holds local epoch 0 and sits at the head of the registry;
along every intervening trace in which the other registered threads run
reader-side operations (checkpoint, offline, online, sync, barrier,
epoch reads) and the fresh thread publishes nothing, `qsbr_sync` by any
other registered caller returns false, for every positive target and any
fuel.  Registry insertions and removals are excluded from the intervening
trace: `qsbr_unregister` leaves a freed record linked and re-registration
makes the chain cyclic (claims C5 and C10), after which the walk no longer
returns a boolean at all. -/
theorem qsbr_sync_false_until_first_checkpoint
    (qs s1 : Qsbr) (mok : Bool) (f c ridc target fuel : Nat) (rc : QsbrTLS)
    (l : List Op)
    (hreg : qsbr_register mok f qs = Except.ok s1)
    (hl : ∀ op ∈ l, reader_op f s1.tls op)
    (hcaller : hget s1.tls c = some ridc)
    (hcrec : hget s1.heap ridc = some rc)
    (hcne : hget s1.tls c ≠ hget s1.tls f)
    (htarget : 1 ≤ target) (hfuel : 1 ≤ fuel) :
    localOf f s1 = some 0 ∧
    ∃ s2, qsbr_sync fuel c target (run l s1) = CRes.ok (false, s2) := by
  obtain ⟨ridf, hf, hlist, hheapf⟩ := qsbr_register_ok_head hreg
  constructor
  · simp [localOf, hf, hheapf]
  · have hridcf : ridc ≠ ridf := fun he => hcne (by rw [hcaller, hf, he])
    obtain ⟨i1, i2, i3, rc', hrc'⟩ :=
      run_reader_preserves f ridf ridc { local_epoch := 0, next := qs.list } s1.tls
        l s1 hl rfl hf hlist hheapf ⟨rc, hcrec⟩
    have hctls2 : hget (run l s1).tls c = some ridc := by
      rw [i1]
      exact hcaller
    have hchk : qsbr_checkpoint c (run l s1) = CRes.ok { run l s1 with
        heap := hset (run l s1).heap ridc
          { rc' with local_epoch := (run l s1).global_epoch } } := by
      simp only [qsbr_checkpoint, hctls2, hrc']
    have hheadf2 : hget (hset (run l s1).heap ridc
        { rc' with local_epoch := (run l s1).global_epoch }) ridf =
        some { local_epoch := 0, next := qs.list } := by
      rw [hget_hset_ne (run l s1).heap ridc ridf _ (Ne.symm hridcf)]
      exact i3
    obtain ⟨k, hk⟩ : ∃ k, fuel = k + 1 := ⟨fuel - 1, by omega⟩
    subst hk
    have hscan : sync_scan (hset (run l s1).heap ridc
        { rc' with local_epoch := (run l s1).global_epoch }) target (k + 1)
        (some ridf) = CRes.ok false := by
      simp only [sync_scan, hheadf2]
      have h01 : (0 : Nat) ≠ 1 := by decide
      have ht2 : 0 < target := htarget
      rw [if_pos (And.intro h01 ht2)]
    refine ⟨{ run l s1 with
      heap := hset (run l s1).heap ridc
        { rc' with local_epoch := (run l s1).global_epoch } }, ?_⟩
    simp only [qsbr_sync, hchk, i2, hscan]

/-- Witness for claim C9, on the re-registration path: threads 2 and 1 are
registered, thread 2 re-registers (its record is memset to epoch 0 and
re-pushed at the head); after a barrier and a run of reader-side calls by
thread 1, a sync by thread 1 with target 3 still returns false. -/
theorem qsbr_sync_false_until_first_checkpoint_witness :
    localOf 2 (step (Op.register false 2) (regAll [2, 1] qs0ex)) = some 0 ∧
    ∃ s2, qsbr_sync 1 1 3
      (run [Op.barrier, Op.checkpoint 1, Op.thread_offline 1, Op.thread_online 1,
            Op.sync 4 3 1, Op.get_epoch 1]
        (step (Op.register false 2) (regAll [2, 1] qs0ex))) = CRes.ok (false, s2) :=
  qsbr_sync_false_until_first_checkpoint (regAll [2, 1] qs0ex)
    (step (Op.register false 2) (regAll [2, 1] qs0ex)) false 2 1 1 3 1
    { local_epoch := 0, next := some 0 }
    [Op.barrier, Op.checkpoint 1, Op.thread_offline 1, Op.thread_online 1,
     Op.sync 4 3 1, Op.get_epoch 1]
    rfl (by decide) rfl rfl (by decide) (by decide) (by decide)

/-- A registry walk over a chain on which every reachable record exists and
satisfies the grace-period condition never finishes, for any fuel. -/
theorem sync_scan_cyclic (h : List (Nat × QsbrTLS)) (target : Nat) :
    ∀ (p : Option Nat),
      (∀ n, ∃ rid r, nthPtr h n p = some rid ∧ hget h rid = some r ∧ grace_ok target r) →
      ∀ fuel, sync_scan h target fuel p = CRes.fuelOut := by
  intro p hall fuel
  induction fuel generalizing p with
  | zero =>
    obtain ⟨rid, r, hn, _, _⟩ := hall 0
    cases p with
    | none => simp [nthPtr] at hn
    | some rid2 => rfl
  | succ fuel ih =>
    obtain ⟨rid, r, hn, hr, hg⟩ := hall 0
    cases p with
    | none => simp [nthPtr] at hn
    | some rid2 =>
      have hrid : rid2 = rid := Option.some_inj.mp hn
      subst hrid
      simp only [sync_scan, hr]
      have hcond : ¬(r.local_epoch ≠ 1 ∧ r.local_epoch < target) := by
        unfold grace_ok at hg
        omega
      rw [if_neg hcond]
      apply ih
      intro n
      obtain ⟨rid3, r3, hn3, hr3, hg3⟩ := hall (n + 1)
      refine ⟨rid3, r3, ?_, hr3, hg3⟩
      simpa [nthPtr, hr] using hn3

/-- Walking `k` steps from a pointer whose chain lists `rid` first at index
`k` reaches `rid`, even after the record at `rid` itself is overwritten
(the walk up to `k` never dereferences `rid`). -/
theorem nthPtr_hset_walk (h : List (Nat × QsbrTLS)) (rid : Nat) (v : QsbrTLS) :
    ∀ (k fuel : Nat) (p : Option Nat) (L : List Nat),
      chainIds h fuel p = some L →
      L.get? k = some rid →
      (∀ j, j < k → L.get? j ≠ some rid) →
      nthPtr (hset h rid v) k p = some rid := by
  intro k
  induction k with
  | zero =>
    intro fuel p L hc hk hlt
    cases p with
    | none =>
      simp only [chainIds] at hc
      cases hc
      cases hk
    | some rid0 =>
      cases fuel with
      | zero => cases hc
      | succ fuel =>
        cases hh : hget h rid0 with
        | none =>
          simp only [chainIds, hh] at hc
          cases hc
        | some r =>
          simp only [chainIds, hh] at hc
          obtain ⟨l, hl, hL⟩ := Option.map_eq_some'.mp hc
          subst hL
          have h0 : rid0 = rid := by simpa using hk
          subst h0
          rfl
  | succ k ih =>
    intro fuel p L hc hk hlt
    cases p with
    | none =>
      simp only [chainIds] at hc
      cases hc
      cases hk
    | some rid0 =>
      cases fuel with
      | zero => cases hc
      | succ fuel =>
        cases hh : hget h rid0 with
        | none =>
          simp only [chainIds, hh] at hc
          cases hc
        | some r =>
          simp only [chainIds, hh] at hc
          obtain ⟨l, hl, hL⟩ := Option.map_eq_some'.mp hc
          subst hL
          have h0 : rid0 ≠ rid := by
            have := hlt 0 (Nat.succ_pos k)
            simpa using this
          have hh2 : hget (hset h rid v) rid0 = some r := by
            rw [hget_hset_ne h rid rid0 v h0]
            exact hh
          simp only [nthPtr, hh2]
          apply ih fuel r.next l hl
          · simpa using hk
          · intro j hj
            have := hlt (j + 1) (Nat.succ_lt_succ hj)
            simpa using this

/-- Claim C10: re-registering a thread whose record is already linked (at
index `k` of the registry chain) pushes the record onto the head again
without unlinking it, so the record becomes reachable both at index 0 and
at index `k + 1` of the `next` chain — the registry is now cyclic; and a
registry walk on which every reachable record exists and satisfies the
grace-period condition never terminates, whatever the fuel. -/
theorem qsbr_double_register_cycle :
    (∀ (qs s1 : Qsbr) (mok : Bool) (tid rid k fuel : Nat) (L : List Nat),
      hget qs.tls tid = some rid →
      qsbr_register mok tid qs = Except.ok s1 →
      chainIds qs.heap fuel qs.list = some L →
      L.get? k = some rid →
      (∀ j, j < k → L.get? j ≠ some rid) →
      nthPtr s1.heap 0 s1.list = some rid ∧ nthPtr s1.heap (k + 1) s1.list = some rid) ∧
    (∀ (h : List (Nat × QsbrTLS)) (target : Nat) (p : Option Nat),
      (∀ n, ∃ rid r, nthPtr h n p = some rid ∧ hget h rid = some r ∧ grace_ok target r) →
      ∀ fuel, sync_scan h target fuel p = CRes.fuelOut) := by
  constructor
  · intro qs s1 mok tid rid k fuel L htls hreg hchain hk hlt
    simp only [qsbr_register, htls] at hreg
    have hs1 : s1 = { qs with
        heap := hset qs.heap rid { local_epoch := 0, next := qs.list },
        list := some rid } := by
      cases hreg
      rfl
    subst hs1
    constructor
    · rfl
    · have hstepone : hget (hset qs.heap rid { local_epoch := 0, next := qs.list }) rid =
          some { local_epoch := 0, next := qs.list } :=
        hget_hset_self qs.heap rid _
      simp only [nthPtr, hstepone]
      exact nthPtr_hset_walk qs.heap rid _ k fuel qs.list L hchain hk hlt
  · exact sync_scan_cyclic

/-- Witness for claim C10: thread 0 registers twice on a fresh instance,
which makes its record point at itself; once the thread is offline every
record of the (cyclic) chain satisfies the condition, and the walk runs
out of any amount of fuel. -/
theorem qsbr_double_register_cycle_witness :
    nthPtr (step (Op.register true 0) (regAll [0] qs0ex)).heap 1
      (step (Op.register true 0) (regAll [0] qs0ex)).list = some 0 ∧
    sync_scan (step (Op.thread_offline 0) (step (Op.register true 0) (regAll [0] qs0ex))).heap
      9 7 (step (Op.thread_offline 0) (step (Op.register true 0) (regAll [0] qs0ex))).list =
      CRes.fuelOut :=
  ⟨(qsbr_double_register_cycle.1 (regAll [0] qs0ex)
      (step (Op.register true 0) (regAll [0] qs0ex)) true 0 0 0 1 [0]
      rfl rfl rfl rfl (fun j hj => absurd hj (Nat.not_lt_zero j))).2,
    qsbr_double_register_cycle.2
      (step (Op.thread_offline 0) (step (Op.register true 0) (regAll [0] qs0ex))).heap 9
      (step (Op.thread_offline 0) (step (Op.register true 0) (regAll [0] qs0ex))).list
      (fun n => ⟨0, { local_epoch := 1, next := some 0 }, by
        induction n with
        | zero => rfl
        | succ n ih => exact ih, rfl, Or.inl rfl⟩) 7⟩

/-- Extending the heap at an id that is not on a chain does not change the
chain. -/
theorem chainIds_hset_fresh (h : List (Nat × QsbrTLS)) (k : Nat) (v : QsbrTLS) :
    ∀ (fuel : Nat) (p : Option Nat) (L : List Nat),
      chainIds h fuel p = some L → (∀ x ∈ L, x ≠ k) →
      chainIds (hset h k v) fuel p = some L := by
  intro fuel
  induction fuel with
  | zero =>
    intro p L hc hx
    cases p with
    | none => exact hc
    | some rid => cases hc
  | succ fuel ih =>
    intro p L hc hx
    cases p with
    | none => exact hc
    | some rid =>
      cases hh : hget h rid with
      | none =>
        simp only [chainIds, hh] at hc
        cases hc
      | some r =>
        simp only [chainIds, hh] at hc
        obtain ⟨l, hl, hL⟩ := Option.map_eq_some'.mp hc
        subst hL
        have hrk : rid ≠ k := hx rid (by simp)
        have hh2 : hget (hset h k v) rid = some r := by
          rw [hget_hset_ne h k rid v hrk]
          exact hh
        simp only [chainIds, hh2]
        rw [ih r.next l hl (fun x hxm => hx x (by simp [hxm]))]
        rfl

/-- Folding `qsbr_register` over a list of fresh, distinct threads: the
induction invariant.  `done` are the threads already registered, in order;
their records are the ids `0, …, done.length - 1`, the registry chain lists
them in reverse registration order, every record holds local epoch 0, and
the TLS map sends the i-th registered thread to record id i. -/
theorem regAll_invariant :
    ∀ (pending done : List Nat) (s : Qsbr),
      pending.Nodup →
      (∀ t, t ∈ pending → t ∉ done) →
      s.next_id = done.length →
      (∀ fuel, done.length ≤ fuel →
        chainIds s.heap fuel s.list = some (List.range done.length).reverse) →
      (∀ rid, rid < done.length → ∃ r, hget s.heap rid = some r ∧ r.local_epoch = 0) →
      (∀ rid, done.length ≤ rid → hget s.heap rid = none) →
      (∀ i t', done.get? i = some t' → hget s.tls t' = some i) →
      (∀ t', t' ∉ done → hget s.tls t' = none) →
      ((regAll pending s).next_id = (done ++ pending).length ∧
       (∀ fuel, (done ++ pending).length ≤ fuel →
         chainIds (regAll pending s).heap fuel (regAll pending s).list =
           some (List.range (done ++ pending).length).reverse) ∧
       (∀ rid, rid < (done ++ pending).length →
         ∃ r, hget (regAll pending s).heap rid = some r ∧ r.local_epoch = 0) ∧
       (∀ rid, (done ++ pending).length ≤ rid → hget (regAll pending s).heap rid = none) ∧
       (∀ i t', (done ++ pending).get? i = some t' →
         hget (regAll pending s).tls t' = some i) ∧
       (∀ t', t' ∉ done ++ pending → hget (regAll pending s).tls t' = none)) := by
  intro pending
  induction pending with
  | nil =>
    intro done s _ _ h1 h2 h3 h4 h5 h6
    simp only [List.append_nil]
    exact ⟨h1, h2, h3, h4, h5, h6⟩
  | cons t ts ih =>
    intro done s hnd hdisj hnid hchain hlocal hnone htls htabs
    have htmem : t ∉ done := hdisj t (List.mem_cons_self t ts)
    have htn : hget s.tls t = none := htabs t htmem
    have hstep : step (Op.register true t) s = { s with
        heap := hset s.heap s.next_id { local_epoch := 0, next := s.list },
        tls := hset s.tls t s.next_id,
        list := some s.next_id,
        next_id := s.next_id + 1 } := by
      simp [step, stepOfExcept, qsbr_register, htn]
    have hnd2 : ts.Nodup := (List.nodup_cons.mp hnd).2
    have htnotts : t ∉ ts := (List.nodup_cons.mp hnd).1
    have hdisj2 : ∀ u, u ∈ ts → u ∉ done ++ [t] := by
      intro u hu hmem
      rcases List.mem_append.mp hmem with hud | hut
      · exact hdisj u (List.mem_cons_of_mem t hu) hud
      · exact htnotts ((List.mem_singleton.mp hut) ▸ hu)
    have hlen2 : (done ++ [t]).length = done.length + 1 := by simp
    have key := ih (done ++ [t])
      { s with
        heap := hset s.heap s.next_id { local_epoch := 0, next := s.list },
        tls := hset s.tls t s.next_id,
        list := some s.next_id,
        next_id := s.next_id + 1 }
      hnd2 hdisj2
      (by simp [hnid])
      (by
        intro fuel hfuel
        rw [hlen2] at hfuel
        obtain ⟨f, rfl⟩ : ∃ f, fuel = f + 1 := ⟨fuel - 1, by omega⟩
        have hh : hget (hset s.heap s.next_id { local_epoch := 0, next := s.list })
            s.next_id = some { local_epoch := 0, next := s.list } :=
          hget_hset_self s.heap s.next_id _
        simp only [chainIds, hh]
        have hold : chainIds s.heap f s.list = some (List.range done.length).reverse :=
          hchain f (by omega)
        have hfresh : ∀ x ∈ (List.range done.length).reverse, x ≠ s.next_id := by
          intro x hx
          rw [hnid]
          have hxlt : x < done.length := by
            simpa [List.mem_reverse, List.mem_range] using hx
          omega
        rw [chainIds_hset_fresh s.heap s.next_id _ f s.list _ hold hfresh]
        simp [hlen2, List.range_succ, hnid])
      (by
        intro rid hrid
        rw [hlen2] at hrid
        by_cases hcase : rid = s.next_id
        · subst hcase
          exact ⟨{ local_epoch := 0, next := s.list }, hget_hset_self s.heap _ _, rfl⟩
        · rw [hget_hset_ne s.heap s.next_id rid _ hcase]
          exact hlocal rid (by rw [hnid] at hcase; omega))
      (by
        intro rid hrid
        rw [hlen2] at hrid
        have hcase : rid ≠ s.next_id := by
          rw [hnid]
          omega
        rw [hget_hset_ne s.heap s.next_id rid _ hcase]
        exact hnone rid (by omega))
      (by
        intro i t' hit
        by_cases hi : i < done.length
        · rw [List.get?_append hi] at hit
          have ht'mem : t' ∈ done := List.get?_mem hit
          have hne : t' ≠ t := fun heq => htmem (heq ▸ ht'mem)
          rw [hget_hset_ne s.tls t t' s.next_id hne]
          exact htls i t' hit
        · have hil : i < (done ++ [t]).length := by
            by_contra hge
            rw [List.get?_eq_none.mpr (by omega)] at hit
            cases hit
          rw [hlen2] at hil
          have hieq : i = done.length := by omega
          subst hieq
          rw [List.get?_append_right (Nat.le_refl _)] at hit
          simp only [Nat.sub_self, List.get?] at hit
          cases hit
          rw [hget_hset_self s.tls t s.next_id, hnid])
      (by
        intro t' ht'
        have h1 : t' ∉ done := fun hmem => ht' (List.mem_append.mpr (Or.inl hmem))
        have h2 : t' ≠ t := fun heq =>
          ht' (List.mem_append.mpr (Or.inr (List.mem_singleton.mpr heq)))
        rw [hget_hset_ne s.tls t t' s.next_id h2]
        exact htabs t' h1)
    have hfold : regAll (t :: ts) s = regAll ts (step (Op.register true t) s) := rfl
    rw [hfold, hstep]
    simpa [List.append_assoc] using key

/-- Claim C8: registering any number of distinct fresh threads against a
fresh instance always succeeds, and afterwards the registry chain holds
exactly one record per thread (the ids `0, …, n-1` in reverse registration
order, with no duplicates), every record with local epoch 0, the i-th
thread's TLS slot naming record i. -/
theorem qsbr_register_race (tids : List Nat) (a b : Bool) (qs0 : Qsbr)
    (hnd : tids.Nodup) (hcreate : qsbr_create a b = some qs0) :
    (∀ t qs, ∃ s2, qsbr_register true t qs = Except.ok s2) ∧
    (∀ fuel, tids.length ≤ fuel →
      chainIds (regAll tids qs0).heap fuel (regAll tids qs0).list =
        some (List.range tids.length).reverse) ∧
    (List.range tids.length).reverse.Nodup ∧
    (List.range tids.length).reverse.length = tids.length ∧
    (∀ rid ∈ (List.range tids.length).reverse, ∃ r,
      hget (regAll tids qs0).heap rid = some r ∧ r.local_epoch = 0) ∧
    (∀ i t', tids.get? i = some t' → hget (regAll tids qs0).tls t' = some i) := by
  have h0 := qsbr_create_eq hcreate
  subst h0
  have key := regAll_invariant tids []
    { global_epoch := 2, tls := [], list := none, heap := [], next_id := 0 }
    hnd (by simp) rfl (by intro fuel _; cases fuel <;> rfl)
    (by
      intro rid hrid
      exact absurd hrid (Nat.not_lt_zero rid))
    (fun rid _ => rfl)
    (by
      intro i t' hit
      cases i <;> cases hit)
    (fun t' _ => rfl)
  simp only [List.nil_append] at key
  obtain ⟨k1, k2, k3, k4, k5, k6⟩ := key
  refine ⟨?_, k2, List.nodup_reverse.mpr (List.nodup_range _), by simp, ?_, k5⟩
  · intro t qs
    unfold qsbr_register
    cases hget qs.tls t with
    | none => exact ⟨_, rfl⟩
    | some rid => exact ⟨_, rfl⟩
  · intro rid hrid
    apply k3
    simpa [List.mem_reverse, List.mem_range] using hrid

/-- Witness for claim C8: two distinct threads 5 and 7 register on a fresh
instance. -/
theorem qsbr_register_race_witness :
    (∀ t qs, ∃ s2, qsbr_register true t qs = Except.ok s2) ∧
    (∀ fuel, ([5, 7] : List Nat).length ≤ fuel →
      chainIds (regAll [5, 7] qs0ex).heap fuel (regAll [5, 7] qs0ex).list =
        some (List.range ([5, 7] : List Nat).length).reverse) ∧
    (List.range ([5, 7] : List Nat).length).reverse.Nodup ∧
    (List.range ([5, 7] : List Nat).length).reverse.length = ([5, 7] : List Nat).length ∧
    (∀ rid ∈ (List.range ([5, 7] : List Nat).length).reverse, ∃ r,
      hget (regAll [5, 7] qs0ex).heap rid = some r ∧ r.local_epoch = 0) ∧
    (∀ i t', ([5, 7] : List Nat).get? i = some t' →
      hget (regAll [5, 7] qs0ex).tls t' = some i) :=
  qsbr_register_race [5, 7] true true qs0ex (by decide) rfl

end LibQsbr
